import Mathlib

/-!
Verification of the DataStructures repository (Rust): a LIFO stack backed by
a growable vector (`src/stack/src/lib.rs`) and a singly linked list
(`src/linked-list/src/lib.rs`).

The embedding is shallow: a `Vec<T>` is a `List T` (index 0 first, growth at
the tail), `Option<T>` is `Option T`, and methods taking `&mut self` are
explicit state-passing functions returning the result together with the new
state.  Methods taking `&self` cannot mutate the receiver, so they are pure
observation functions of the state.
-/

namespace DS

/-- `Stack<T>` from `src/stack/src/lib.rs`: `pub struct Stack<T> { items: Vec<T> }`.
The backing `Vec<T>` is modelled as `List T`, front of the list = index 0 of
the vector, pushes happen at the tail (the end of the list). -/
structure Stack (T : Type) where
  items : List T
deriving Repr, DecidableEq

namespace Stack

variable {T : Type}

/-- `Stack::new`: `Self { items: Vec::new() }`. -/
def new (T : Type) : Stack T := ⟨[]⟩

/-- `Stack::push(&mut self, value: T)`: `self.items.push(value)`.
`Vec::push` appends the value at the end of the vector. -/
def push (s : Stack T) (value : T) : Stack T := ⟨s.items ++ [value]⟩

/-- `Stack::pop(&mut self) -> Option<T>`: `self.items.pop()`.
`Vec::pop` removes and returns the last element, or `None` when the vector
is empty.  Returned as (result, state after the call). -/
def pop (s : Stack T) : Option T × Stack T :=
  (s.items.getLast?, ⟨s.items.dropLast⟩)

/-- `Stack::peek(&self) -> Option<&T>`: `self.items.last()` — the last
element of the vector, or `None` when empty.  `&self`: no mutation. -/
def peek (s : Stack T) : Option T := s.items.getLast?

/-- `Stack::is_empty(&self) -> bool`: `self.items.is_empty()`. -/
def is_empty (s : Stack T) : Bool := s.items.isEmpty

/-- `len()` as reachable through the `Deref` impl (`Vec::len` of the
underlying vector), as used in the crate's own tests (`stack.len()`). -/
def len (s : Stack T) : Nat := s.items.length

/-- The `Deref` impl for `Stack<T>`: `fn deref(&self) -> &Vec<T> { &self.items }` —
a read-only view of the underlying vector. -/
def deref (s : Stack T) : List T := s.items

end Stack

/-- `StackIterator<'a, T>` from `src/stack/src/lib.rs`:
`items: &'a Vec<T>, index: usize`.  The shared borrow of the vector is its
value, the index is a `Nat`. -/
structure StackIterator (T : Type) where
  items : List T
  index : Nat
deriving Repr, DecidableEq

/-- `Stack::iter(&self)`: `StackIterator { items: &self.items, index: self.items.len() }`. -/
def Stack.iter {T : Type} (s : Stack T) : StackIterator T :=
  ⟨s.items, s.items.length⟩

/-- `StackIterator::next`: when `self.index > 0` it does `self.index -= 1`
and returns `Some(&self.items[self.index])`, otherwise `None`.  The
unchecked index `self.items[self.index]` (which panics out of bounds) is
modelled by `List.get?`; the safety claim shows it is always `some`. -/
def StackIterator.next {T : Type} (it : StackIterator T) : Option T × StackIterator T :=
  if 0 < it.index then
    (it.items[it.index - 1]?, ⟨it.items, it.index - 1⟩)
  else
    (none, it)

/-- Run the iterator to exhaustion, collecting the yielded elements in
order: repeated calls to `StackIterator.next` until it returns `none`
(this is what the crate's `for item in stack.iter()` loop does). -/
def StackIterator.drain {T : Type} (it : StackIterator T) : List T :=
  if _h : 0 < it.index then
    match (StackIterator.next it).1 with
    | some v => v :: StackIterator.drain (StackIterator.next it).2
    | none => []
  else []
termination_by it.index
decreasing_by
  simp [StackIterator.next, _h]

/-- Apply `StackIterator.next` `n` times, keeping only the state. -/
def StackIterator.advance {T : Type} (it : StackIterator T) : Nat → StackIterator T
  | 0 => it
  | n + 1 => StackIterator.advance (StackIterator.next it).2 n

/-- Push a whole list of values, in order, one `Stack.push` at a time. -/
def Stack.pushAll {T : Type} (s : Stack T) (vs : List T) : Stack T :=
  vs.foldl Stack.push s

/-- The public methods of `Stack<T>` (and the length/read access reached
through its `Deref` impl), as one call alphabet. -/
inductive StackMethod (T : Type) where
  | push (value : T)
  | pop
  | peek
  | is_empty
  | iter
  | len
  | deref

/-- Which methods take `&mut self` in the source.  Only `push` and `pop`
do; every other entry point borrows the stack immutably (`&self`). -/
def StackMethod.mutating {T : Type} : StackMethod T → Bool
  | .push _ => true
  | .pop => true
  | _ => false

/-- The state of the stack after one method call.  `push` and `pop` take
`&mut self` and update `self.items` as their bodies do; every other method
takes `&self`, so the borrow checker forbids any mutation and the state
after the call is the receiver itself. -/
def Stack.stepState {T : Type} (s : Stack T) : StackMethod T → Stack T
  | .push v => s.push v
  | .pop => (s.pop).2
  | .peek => s
  | .is_empty => s
  | .iter => s
  | .len => s
  | .deref => s

/-- The two-state abstraction of the spec's state machine. -/
inductive AbsState where
  | Empty
  | NonEmpty
deriving Repr, DecidableEq

/-- Abstraction map: a stack is in state `Empty` iff `is_empty()` holds. -/
def Stack.absState {T : Type} (s : Stack T) : AbsState :=
  if s.is_empty then .Empty else .NonEmpty

/-! ## The linked list (`src/linked-list/src/lib.rs`) -/

/-- A chain of nodes from `src/linked-list/src/lib.rs`.  In the source a
chain is `Option<Box<Node<T>>>` with
`struct Node<T> { value: T, next: Option<Box<Node<T>>> }`; here `nil`
stands for `None` and `cons value next` for
`Some(Box::new(Node { value, next }))`. -/
inductive Chain (T : Type) where
  | nil
  | cons (value : T) (next : Chain T)
deriving Repr, DecidableEq

/-- `LinkedList<T>`: `pub struct LinkedList<T: Display> { head: Option<Box<Node<T>>> }`.
The `T: Display` bound is modelled by passing an explicit rendering
function `T → String` to the formatting code. -/
structure LinkedList (T : Type) where
  head : Chain T
deriving Repr, DecidableEq

namespace LinkedList

variable {T : Type}

/-- `LinkedList::new`: `Self { head: None }`. -/
def new (T : Type) : LinkedList T := ⟨.nil⟩

/-- `LinkedList::is_empty`: `self.head.is_none()`. -/
def is_empty (l : LinkedList T) : Bool :=
  match l.head with
  | .nil => true
  | .cons _ _ => false

/-- The `while let Some(node)` loop of `LinkedList::len`: one increment of
`size` per node of the chain. -/
def sizeLoop : Chain T → Nat
  | .nil => 0
  | .cons _ next => sizeLoop next + 1

/-- `LinkedList::len`: walks the chain counting nodes. -/
def len (l : LinkedList T) : Nat := sizeLoop l.head

/-- `LinkedList::prepend`: `self.head = Some(Box::new(Node { value, next: self.head.take() }))`. -/
def prepend (l : LinkedList T) (value : T) : LinkedList T :=
  ⟨.cons value l.head⟩

/-- The `while let Some(node)` loop of `LinkedList::append`: walk to the
node whose `next` is `None` and attach a fresh node holding `value` there.
Called only with a non-empty chain (the `None` head case is handled before
the loop); on `nil` the loop body never runs and the chain is unchanged. -/
def appendLoop (value : T) : Chain T → Chain T
  | .nil => .nil
  | .cons w next =>
    match next with
    | .nil => .cons w (.cons value .nil)
    | .cons _ _ => .cons w (appendLoop value next)

/-- `LinkedList::append`: `if self.head.is_none() { self.prepend(value); return; }`,
otherwise the walking loop. -/
def append (l : LinkedList T) (value : T) : LinkedList T :=
  match l.head with
  | .nil => l.prepend value
  | .cons _ _ => ⟨appendLoop value l.head⟩

/-- Append a whole list of values, in order, one `append` at a time. -/
def appendAll (l : LinkedList T) (vs : List T) : LinkedList T :=
  vs.foldl append l

/-- The `while let Some(node)` loop of the `Display` impl: writes the text
form of each value, head to tail, with no separators. -/
def fmtLoop (disp : T → String) : Chain T → String
  | .nil => ""
  | .cons v next => disp v ++ fmtLoop disp next

/-- The `Display` impl for `LinkedList<T>`: `"["`, then every element's
text form in chain order, then `"]"`. -/
def fmt (disp : T → String) (l : LinkedList T) : String :=
  "[" ++ fmtLoop disp l.head ++ "]"

/-- The values held by a chain, head first (insertion order when the list
was built by `append`). -/
def values : Chain T → List T
  | .nil => []
  | .cons v next => v :: values next

end LinkedList

/-! ## Helper lemmas -/

/-- Popping right after a push returns the pushed value and the pre-push state. -/
lemma Stack.push_pop {T : Type} (s : Stack T) (v : T) :
    (s.push v).pop = (some v, s) := by
  cases s with
  | mk items =>
    simp [Stack.push, Stack.pop, List.getLast?_concat, List.dropLast_concat]

/-- The backing vector after a sequence of pushes is the prior vector
followed by the pushed values in push order. -/
lemma Stack.pushAll_items {T : Type} (vs : List T) :
    ∀ s : Stack T, (s.pushAll vs).items = s.items ++ vs := by
  induction vs with
  | nil => intro s; simp [Stack.pushAll]
  | cons v vs ih =>
    intro s
    show ((s.push v).pushAll vs).items = s.items ++ v :: vs
    rw [ih]
    simp [Stack.push]

/-- `is_empty` holds exactly on the empty backing vector. -/
lemma Stack.is_empty_iff {T : Type} (s : Stack T) :
    s.is_empty = true ↔ s.items = [] := by
  simp [Stack.is_empty]

/-- Draining an iterator whose index is within bounds yields the first
`index` elements of the vector, last of them first. -/
lemma StackIterator.drain_eq {T : Type} :
    ∀ (i : Nat) (items : List T), i ≤ items.length →
      StackIterator.drain ⟨items, i⟩ = (items.take i).reverse := by
  intro i
  induction i with
  | zero =>
    intro items h
    rw [StackIterator.drain]
    simp
  | succ n ih =>
    intro items h
    have hn : n < items.length := h
    rw [StackIterator.drain, dif_pos (Nat.succ_pos n)]
    have hnext : StackIterator.next ⟨items, n + 1⟩ = (items[n]?, ⟨items, n⟩) := by
      simp [StackIterator.next]
    simp only [hnext, Nat.succ_sub_one, List.getElem?_eq_getElem hn]
    rw [ih items (Nat.le_of_lt hn)]
    rw [List.take_succ, List.getElem?_eq_getElem hn, List.reverse_append]
    rfl

/-- Under the invariant, `next` yields an element exactly when the index is
still positive. -/
lemma StackIterator.next_isSome {T : Type} (it : StackIterator T)
    (hinv : it.index ≤ it.items.length) (hpos : 0 < it.index) :
    (it.next.1).isSome = true := by
  have hlt : it.index - 1 < it.items.length := by omega
  unfold StackIterator.next
  rw [if_pos hpos]
  simp [List.getElem?_eq_getElem hlt]

/-- The append loop walks a non-empty chain and attaches the new value at
the far end. -/
lemma LinkedList.values_appendLoop {T : Type} (v : T) :
    ∀ (w : T) (c : Chain T),
      LinkedList.values (LinkedList.appendLoop v (.cons w c)) =
        w :: (LinkedList.values c ++ [v]) := by
  intro w c
  induction c generalizing w with
  | nil => rfl
  | cons x d ih =>
    show LinkedList.values (.cons w (LinkedList.appendLoop v (.cons x d))) = _
    simp only [LinkedList.values]
    rw [ih x]
    simp [LinkedList.values]

/-- `append` adds its value at the tail of the chain. -/
lemma LinkedList.values_append {T : Type} (l : LinkedList T) (v : T) :
    LinkedList.values (l.append v).head = LinkedList.values l.head ++ [v] := by
  cases hl : l.head with
  | nil => simp [LinkedList.append, hl, LinkedList.prepend, LinkedList.values]
  | cons w c => simp [LinkedList.append, hl, LinkedList.values_appendLoop, LinkedList.values]

/-- A sequence of appends adds the values at the tail in order. -/
lemma LinkedList.values_appendAll {T : Type} (vs : List T) :
    ∀ l : LinkedList T,
      LinkedList.values (l.appendAll vs).head = LinkedList.values l.head ++ vs := by
  induction vs with
  | nil => intro l; simp [LinkedList.appendAll]
  | cons v vs ih =>
    intro l
    show LinkedList.values ((l.append v).appendAll vs).head = _
    rw [ih, LinkedList.values_append]
    simp

lemma join_cons_eq (s : String) (l : List String) :
    String.join (s :: l) = s ++ String.join l := by
  simp [String.join_eq]
  rfl

/-- The display loop writes exactly the concatenation of the text forms of
the chain's values, head first. -/
lemma LinkedList.fmtLoop_eq_join {T : Type} (disp : T → String) :
    ∀ c : Chain T,
      LinkedList.fmtLoop disp c = String.join ((LinkedList.values c).map disp) := by
  intro c
  induction c with
  | nil => rfl
  | cons v next ih => simp [LinkedList.fmtLoop, LinkedList.values, ih, join_cons_eq]

/-! ## The claims -/

/-- C1: the stack is LIFO — `pop` returns exactly the most recently pushed
value and restores the state before that push; pushing 42 then 314 onto an
empty stack and popping three times yields `some 314`, `some 42`, `none`. -/
theorem stack_lifo_pop_order :
    (∀ (T : Type) (s : Stack T) (v : T), (s.push v).pop = (some v, s)) ∧
    (((Stack.new Nat).push 42 |>.push 314).pop.1 = some 314 ∧
     ((Stack.new Nat).push 42 |>.push 314).pop.2.pop.1 = some 42 ∧
     ((Stack.new Nat).push 42 |>.push 314).pop.2.pop.2.pop.1 = none) := by
  refine ⟨fun T s v => Stack.push_pop s v, ?_⟩
  decide

/-- C2: `push` always succeeds and grows the length by exactly 1; after
pushing v1..vn onto a fresh stack, `len()` is n and `is_empty()` is false
exactly when n is positive. -/
theorem push_length_and_emptiness :
    (∀ (T : Type) (s : Stack T) (v : T), (s.push v).len = s.len + 1) ∧
    (∀ (T : Type) (vs : List T),
      ((Stack.new T).pushAll vs).len = vs.length ∧
      (((Stack.new T).pushAll vs).is_empty = false ↔ 0 < vs.length)) := by
  constructor
  · intro T s v
    simp [Stack.push, Stack.len]
  · intro T vs
    constructor
    · simp [Stack.len, Stack.pushAll_items, Stack.new]
    · simp [Stack.is_empty, Stack.pushAll_items, Stack.new, List.isEmpty_iff,
        List.length_pos]

/-- Witness for C2 at a concrete input. -/
theorem push_length_and_emptiness_witness :
    ((Stack.new Nat).pushAll [5, 6, 7]).len = 3 ∧
    ((Stack.new Nat).pushAll [5, 6, 7]).is_empty = false :=
  ⟨(push_length_and_emptiness.2 Nat [5, 6, 7]).1,
   (push_length_and_emptiness.2 Nat [5, 6, 7]).2.mpr (by decide)⟩

/-- C3: `push(v)` then `pop()` returns `some v` and restores the previous
length, the previous top, and in fact the whole previous state. -/
theorem push_pop_roundtrip (T : Type) (s : Stack T) (v : T) :
    (s.push v).pop.1 = some v ∧
    (s.push v).pop.2.len = s.len ∧
    (s.push v).pop.2.peek = s.peek ∧
    (s.push v).pop.2 = s := by
  rw [Stack.push_pop s v]
  exact ⟨rfl, rfl, rfl, rfl⟩

/-- C4: popping an empty stack returns `none` as a normal optional result
and leaves the stack unchanged, with length still 0. -/
theorem pop_empty_none (T : Type) (s : Stack T) (h : s.is_empty = true) :
    s.pop.1 = none ∧ s.pop.2 = s ∧ s.pop.2.len = 0 := by
  cases s with
  | mk items =>
    have : items = [] := (Stack.is_empty_iff ⟨items⟩).mp h
    subst this
    exact ⟨rfl, rfl, rfl⟩

/-- Witness for C4: the freshly created stack is empty and popping it
returns nothing. -/
theorem pop_empty_none_witness :
    (Stack.new Nat).pop.1 = none ∧ (Stack.new Nat).pop.2 = Stack.new Nat ∧
    (Stack.new Nat).pop.2.len = 0 :=
  pop_empty_none Nat (Stack.new Nat) (by decide)

/-- C5: the representation invariant holds for every reachable and indeed
every stack state, and every operation respects it: the top (`peek`) is the
last element of the backing vector, the length is the vector's length,
emptiness is emptiness of the vector, `new` starts from the empty vector,
`push` appends at the tail, a sequence of pushes lays the values down in
push order (oldest first), `pop` removes the tail element, and `iter` reads
the vector unchanged. -/
theorem representation_invariant :
    (∀ (T : Type) (s : Stack T), s.peek = s.items.getLast?) ∧
    (∀ (T : Type) (s : Stack T), s.len = s.items.length) ∧
    (∀ (T : Type) (s : Stack T), (s.is_empty = true ↔ s.items = [])) ∧
    (∀ (T : Type), (Stack.new T).items = []) ∧
    (∀ (T : Type) (s : Stack T) (v : T), (s.push v).items = s.items ++ [v]) ∧
    (∀ (T : Type) (vs : List T), ((Stack.new T).pushAll vs).items = vs) ∧
    (∀ (T : Type) (s : Stack T), s.pop.2.items = s.items.dropLast ∧
        s.pop.1 = s.items.getLast?) ∧
    (∀ (T : Type) (s : Stack T), (s.iter).items = s.items) := by
  refine ⟨fun T s => rfl, fun T s => rfl, fun T s => Stack.is_empty_iff s,
    fun T => rfl, fun T s v => rfl, ?_, fun T s => ⟨rfl, rfl⟩, fun T s => rfl⟩
  intro T vs
  simp [Stack.pushAll_items, Stack.new]

/-- Witness for C5 at a concrete input. -/
theorem representation_invariant_witness :
    ((Stack.new Nat).pushAll [1, 2]).items = [1, 2] ∧
    (Stack.new Nat).is_empty = true :=
  ⟨representation_invariant.2.2.2.2.2.1 Nat [1, 2],
   (representation_invariant.2.2.1 Nat (Stack.new Nat)).mpr rfl⟩

/-- C6: the only mutating entry points are `push` and `pop`; every other
method call (`peek`, `is_empty`, `iter`, `len`, the `Deref` read access)
leaves the state unchanged, so `peek` never changes the length and two
consecutive peeks with no mutation in between return the same result. -/
theorem read_only_methods_frame :
    (∀ (T : Type) (s : Stack T) (m : StackMethod T),
        m.mutating = false → s.stepState m = s) ∧
    (∀ (T : Type) (s : Stack T),
        (s.stepState .peek).len = s.len ∧ (s.stepState .peek).peek = s.peek) := by
  constructor
  · intro T s m hm
    cases m with
    | push v => simp [StackMethod.mutating] at hm
    | pop => simp [StackMethod.mutating] at hm
    | peek => rfl
    | is_empty => rfl
    | iter => rfl
    | len => rfl
    | deref => rfl
  · intro T s
    exact ⟨rfl, rfl⟩

/-- Witness for C6: a `peek` call on a concrete stack leaves it unchanged. -/
theorem read_only_methods_frame_witness :
    ((Stack.new Nat).push 9).stepState .peek = (Stack.new Nat).push 9 :=
  read_only_methods_frame.1 Nat ((Stack.new Nat).push 9) .peek (by decide)

/-- C7: draining the iterator yields exactly the stack's elements in
top-to-bottom order (the reverse of push order); every call to `iter`
yields the same fresh iterator, determined by the current state alone and
starting at the current top; after pushing 42 then 314 the iterator yields
314 then 42. -/
theorem iter_top_to_bottom :
    (∀ (T : Type) (s : Stack T), (s.iter).drain = s.items.reverse) ∧
    (∀ (T : Type) (vs : List T),
        (((Stack.new T).pushAll vs).iter).drain = vs.reverse) ∧
    (∀ (T : Type) (s : Stack T), s.iter = ⟨s.items, s.len⟩) ∧
    (((Stack.new Nat).push 42 |>.push 314).iter.drain = [314, 42]) := by
  have hdrain : ∀ (T : Type) (s : Stack T), (s.iter).drain = s.items.reverse := by
    intro T s
    have h := StackIterator.drain_eq (T := T) s.items.length s.items le_rfl
    simpa [Stack.iter, List.take_length] using h
  refine ⟨hdrain, ?_, fun T s => rfl, ?_⟩
  · intro T vs
    rw [hdrain]
    simp [Stack.pushAll_items, Stack.new]
  · rw [hdrain]
    decide

/-- C8: the `Display` impl renders the list's elements head to tail
(insertion order under `append`) between brackets with no separators:
always `"["` ++ the concatenated text forms ++ `"]"`, and after appending
1, 2, 3 it renders as `"[123]"`. -/
theorem display_brackets_concat :
    (∀ (T : Type) (disp : T → String) (l : LinkedList T),
        LinkedList.fmt disp l =
          "[" ++ String.join ((LinkedList.values l.head).map disp) ++ "]") ∧
    (∀ (T : Type) (disp : T → String) (vs : List T),
        LinkedList.fmt disp ((LinkedList.new T).appendAll vs) =
          "[" ++ String.join (vs.map disp) ++ "]") ∧
    (LinkedList.fmt (fun n => Nat.repr n) ((LinkedList.new Nat).appendAll [1, 2, 3])
        = "[123]") := by
  have hfmt : ∀ (T : Type) (disp : T → String) (l : LinkedList T),
      LinkedList.fmt disp l =
        "[" ++ String.join ((LinkedList.values l.head).map disp) ++ "]" := by
    intro T disp l
    rw [LinkedList.fmt, LinkedList.fmtLoop_eq_join]
  refine ⟨hfmt, ?_, ?_⟩
  · intro T disp vs
    rw [hfmt, LinkedList.values_appendAll]
    simp [LinkedList.new, LinkedList.values]
  · decide

/-- C9: the two-state abstraction {Empty, NonEmpty} is a faithful state
machine: `push` always lands in NonEmpty; from NonEmpty, `pop` lands in
Empty exactly when the length becomes 0 and in NonEmpty otherwise; on
Empty, `pop` is a no-op returning nothing. -/
theorem two_state_machine :
    (∀ (T : Type) (s : Stack T) (v : T), (s.push v).absState = .NonEmpty) ∧
    (∀ (T : Type) (s : Stack T), s.absState = .NonEmpty →
        ((s.pop.2.absState = .Empty ↔ s.pop.2.len = 0) ∧
         (s.pop.2.len ≠ 0 → s.pop.2.absState = .NonEmpty))) ∧
    (∀ (T : Type) (s : Stack T), s.absState = .Empty → s.pop = (none, s)) := by
  have habs : ∀ (T : Type) (t : Stack T), (t.absState = .Empty ↔ t.len = 0) := by
    intro T t
    cases t with
    | mk items =>
      cases items with
      | nil => simp [Stack.absState, Stack.is_empty, Stack.len]
      | cons a l => simp [Stack.absState, Stack.is_empty, Stack.len]
  have hne : ∀ (T : Type) (t : Stack T), t.len ≠ 0 → t.absState = .NonEmpty := by
    intro T t ht
    cases h : t.absState with
    | Empty => exact absurd ((habs T t).mp h) ht
    | NonEmpty => rfl
  refine ⟨?_, ?_, ?_⟩
  · intro T s v
    cases s with
    | mk items => simp [Stack.absState, Stack.push, Stack.is_empty]
  · intro T s _
    exact ⟨habs T s.pop.2, hne T s.pop.2⟩
  · intro T s hs
    cases s with
    | mk items =>
      cases items with
      | nil => rfl
      | cons a l => simp [Stack.absState, Stack.is_empty] at hs

/-- Witness for C9 at concrete inputs: a push lands in NonEmpty, popping a
one-element stack lands in Empty, popping the empty stack is a no-op. -/
theorem two_state_machine_witness :
    ((Stack.new Nat).push 1).absState = .NonEmpty ∧
    ((Stack.new Nat).push 1).pop.2.absState = .Empty ∧
    (Stack.new Nat).pop = (none, Stack.new Nat) :=
  ⟨two_state_machine.1 Nat (Stack.new Nat) 1,
   (two_state_machine.2.1 Nat ((Stack.new Nat).push 1) (by decide)).1.mpr (by decide),
   two_state_machine.2.2 Nat (Stack.new Nat) (by decide)⟩

/-- C10: `iter` establishes and `next` preserves the invariant
`index ≤ items.length`; under it, while the index is positive the access
`items[index]` after the decrement is always in bounds (the yielded value
is `some`), and once `next` returns `none` the iterator state is fixed and
every later `next` also returns `none`. -/
theorem iterator_index_in_bounds :
    (∀ (T : Type) (s : Stack T), (s.iter).index ≤ (s.iter).items.length) ∧
    (∀ (T : Type) (it : StackIterator T), it.index ≤ it.items.length →
        ((it.next.2).index ≤ (it.next.2).items.length ∧
         (0 < it.index → (it.next.1).isSome = true) ∧
         (it.next.1 = none →
            ∀ n : Nat, it.advance n = it ∧ (it.advance n).next.1 = none))) := by
  constructor
  · intro T s
    exact le_rfl
  · intro T it hinv
    refine ⟨?_, fun hpos => StackIterator.next_isSome it hinv hpos, ?_⟩
    · by_cases hpos : 0 < it.index
      · simp only [StackIterator.next, if_pos hpos]
        omega
      · simpa [StackIterator.next, hpos] using hinv
    · intro hnone
      have hidx : it.index = 0 := by
        by_contra hne2
        have hsome := StackIterator.next_isSome it hinv (Nat.pos_of_ne_zero hne2)
        rw [hnone] at hsome
        simp at hsome
      have hstep : it.next = (none, it) := by
        simp [StackIterator.next, hidx]
      intro n
      induction n with
      | zero => exact ⟨rfl, hnone⟩
      | succ m ih =>
        have hadv : it.advance (m + 1) = it.advance m := by
          show StackIterator.advance (it.next.2) m = StackIterator.advance it m
          rw [hstep]
        rw [hadv]
        exact ih

/-- Witness for C10 at concrete iterators: with one element left the access
is in bounds, and an exhausted iterator keeps returning nothing. -/
theorem iterator_index_in_bounds_witness :
    ((⟨[5], 1⟩ : StackIterator Nat).next.1).isSome = true ∧
    ((⟨[5], 0⟩ : StackIterator Nat).advance 3).next.1 = none :=
  ⟨(iterator_index_in_bounds.2 Nat ⟨[5], 1⟩ (by decide)).2.1 (by decide),
   ((iterator_index_in_bounds.2 Nat ⟨[5], 0⟩ (by decide)).2.2 (by decide) 3).2⟩

end DS
